import Mathlib

/-!
Verification of the variable-length binary column abstraction exercised by
`be/src/bench/binary_column_copy_bench.cpp`.

The repository ships only the benchmark driver; the column implementation
(`column/binary_column.h`) is not part of the sources, so the column, its
byte buffer and its offset index are modelled from the specification and
the benchmark's usage.  The benchmark's `_rand_str` generator is translated
directly from the source.
-/

namespace StarRocks

/-- A byte string is modelled as a list of natural numbers (byte values). -/
abbrev Bytes := List Nat

/-- Modelled from the spec: the error taxonomy of section 7 — OutOfMemory,
IndexOutOfRange and InvalidState. -/
inductive ColumnError where
  | IndexOutOfRange
  | InvalidState
  | OutOfMemory
deriving DecidableEq, Repr

/-- Modelled from the spec: a Binary Column composes a byte buffer (the
contiguous bytes of all rows) and an offset index (cumulative end positions,
length `row_count + 1`).  The missing source is `column/binary_column.h`. -/
structure BinaryColumn where
  bytes : Bytes
  offsets : List Nat
deriving DecidableEq, Repr

namespace BinaryColumn

/-- Modelled from the spec: a column is created empty, `row_count = 0`,
`offsets = [0]`. -/
def empty : BinaryColumn := ⟨[], [0]⟩

/-- Modelled from the spec: `row_count = len(offsets) - 1`. -/
def row_count (c : BinaryColumn) : Nat := c.offsets.length - 1

/-- Modelled from the spec: `total_bytes()` is the byte buffer's size. -/
def total_bytes (c : BinaryColumn) : Nat := c.bytes.length

/-- Modelled from the spec: `append_value(bytes)` appends `bytes` as a new
row: the bytes go to the end of the buffer and
`new_end = byte_buffer.size + len(bytes)` is pushed onto the offset index. -/
def append_value (c : BinaryColumn) (s : Bytes) : BinaryColumn :=
  { bytes := c.bytes ++ s
    offsets := c.offsets ++ [c.bytes.length + s.length] }

/-- Modelled from the spec: `bounds(i)` of the offset index returns
`(offsets[i], offsets[i+1])` for `0 ≤ i < row_count` and fails with
IndexOutOfRange otherwise. -/
def bounds (c : BinaryColumn) (i : Nat) : Except ColumnError (Nat × Nat) :=
  if i < c.row_count then .ok (c.offsets.getD i 0, c.offsets.getD (i + 1) 0)
  else .error .IndexOutOfRange

/-- Modelled from the spec: `get_row(i)` bounds-checks `i`, computes
`(start, end) = bounds(i)` and returns the bytes `bytes[start:end)`. -/
def get_row (c : BinaryColumn) (i : Nat) : Except ColumnError Bytes :=
  match c.bounds i with
  | .ok (s, e) => .ok ((c.bytes.drop s).take (e - s))
  | .error err => .error err

end BinaryColumn

/-- Modelled from the spec: a Row View is a borrowed (start, length) pair
into a byte buffer; its referenced bytes are `buf[start : start+len)`. -/
structure RowView where
  buf : Bytes
  start : Nat
  len : Nat
deriving DecidableEq, Repr

/-- The byte string a Row View references. -/
def RowView.bytes (v : RowView) : Bytes := (v.buf.drop v.start).take v.len

namespace BinaryColumn

/-- Modelled from the spec: `get_slice(i)` / `get_row(i)` as used by the
benchmark's mode 2 returns a borrowed view over
`bytes[offsets[i] : offsets[i+1])`. -/
def get_slice (c : BinaryColumn) (i : Nat) : RowView :=
  ⟨c.bytes, c.offsets.getD i 0, c.offsets.getD (i + 1) 0 - c.offsets.getD i 0⟩

/-- Modelled from the spec: `append_view(view)` copies the view's referenced
bytes into this column's own storage, exactly as `append_value` would. -/
def append_view (c : BinaryColumn) (v : RowView) : BinaryColumn :=
  c.append_value v.bytes

/-- Modelled from the spec: `materialized_rows()` returns one owned copy of
every row's bytes, in row order.  The benchmark's mode 1 obtains these via
`get_data()`. -/
def materialized_rows (c : BinaryColumn) : List Bytes :=
  (List.range c.row_count).map fun i =>
    (c.bytes.drop (c.offsets.getD i 0)).take
      (c.offsets.getD (i + 1) 0 - c.offsets.getD i 0)

/-- Modelled from the spec: `append_range(source, start_row, end_row)` copies
the contiguous byte span of `source` between `offsets[start_row]` and
`offsets[end_row]` in one bulk copy, then appends `end_row - start_row` new
offset entries, the k-th (0-based) equal to
`source.offsets[start_row+k+1] - source.offsets[start_row]` plus this
buffer's size before the copy. -/
def append_range (dst src : BinaryColumn) (start_row end_row : Nat) : BinaryColumn :=
  let s := src.offsets.getD start_row 0
  let e := src.offsets.getD end_row 0
  { bytes := dst.bytes ++ (src.bytes.drop s).take (e - s)
    offsets := dst.offsets ++ (List.range (end_row - start_row)).map
      (fun k => src.offsets.getD (start_row + k + 1) 0 - s + dst.bytes.length) }

end BinaryColumn

/-- Modelled from the spec: `push_end(new_end)` of the Offset Index appends
`new_end` when it is at least the last element and fails with InvalidState
otherwise. -/
def push_end (offsets : List Nat) (new_end : Nat) : Except ColumnError (List Nat) :=
  if offsets.getLastD 0 ≤ new_end then .ok (offsets ++ [new_end])
  else .error .InvalidState

/-- Modelled from the spec: the Byte Buffer has a byte count `size` (here
`data.length`) and an allocated `capacity`. -/
structure ByteBuffer where
  data : Bytes
  capacity : Nat
deriving DecidableEq, Repr

namespace ByteBuffer

/-- Occupied byte count of the buffer. -/
def size (b : ByteBuffer) : Nat := b.data.length

/-- Modelled from the spec: `append_bytes(data)` copies the bytes to the end
of storage; when remaining capacity is insufficient it grows to
`max(size + length, capacity * 2)` first.  Allocation is abstracted by the
oracle `canAlloc`; when growth allocation fails the call fails with
OutOfMemory and the buffer is returned unchanged (no partial write). -/
def append_bytes (b : ByteBuffer) (canAlloc : Nat → Bool) (s : Bytes) :
    Except ColumnError Unit × ByteBuffer :=
  if b.size + s.length ≤ b.capacity then (.ok (), ⟨b.data ++ s, b.capacity⟩)
  else
    let newCap := max (b.size + s.length) (b.capacity * 2)
    if canAlloc newCap then (.ok (), ⟨b.data ++ s, newCap⟩)
    else (.error .OutOfMemory, b)

end ByteBuffer

/-- Modelled from the spec: a Binary Column carrying its buffer's capacity,
used to state the OutOfMemory failure semantics of an append. -/
structure BufferedColumn where
  buf : ByteBuffer
  offsets : List Nat
deriving DecidableEq, Repr

namespace BufferedColumn

/-- Modelled from the spec: `append_value` on the capacity-aware column:
forward the byte write to the buffer, then push
`new_end = byte_buffer.size + len(bytes)`; on an OutOfMemory failure of the
buffer nothing is mutated. -/
def append_value (c : BufferedColumn) (canAlloc : Nat → Bool) (s : Bytes) :
    Except ColumnError Unit × BufferedColumn :=
  match c.buf.append_bytes canAlloc s with
  | (.ok _, buf2) => (.ok (), ⟨buf2, c.offsets ++ [c.buf.size + s.length]⟩)
  | (.error e, _) => (.error e, c)

end BufferedColumn

/-- Translated from `BinaryColumnCopyBench::_rand_str`
(src/be/src/bench/binary_column_copy_bench.cpp:78-90): the j-th call to
`_rand()` is modelled by `rand j`; the string length is `rand 0 % 32 + 1`
and the j-th character is `rand (j+1) % 26 + 'A'` (65). -/
def rand_str (rand : Nat → Nat) : Bytes :=
  (List.range (rand 0 % 32 + 1)).map fun j => rand (j + 1) % 26 + 65

/-- The offset-index invariant of the spec: `offsets` is non-empty (length
`row_count + 1`), starts at 0, is non-decreasing, and its last element is the
byte buffer's size. -/
def Valid (c : BinaryColumn) : Prop :=
  c.offsets ≠ [] ∧
  c.offsets.getD 0 0 = 0 ∧
  (∀ i < c.offsets.length - 1, c.offsets.getD i 0 ≤ c.offsets.getD (i + 1) 0) ∧
  c.offsets.getD (c.offsets.length - 1) 0 = c.bytes.length

instance (c : BinaryColumn) : Decidable (Valid c) := by
  unfold Valid; infer_instance

instance : DecidableEq (Except ColumnError Bytes) := fun a b =>
  match a, b with
  | .ok x, .ok y => decidable_of_iff (x = y) (by simp)
  | .error x, .error y => decidable_of_iff (x = y) (by simp)
  | .ok _, .error _ => isFalse (by simp)
  | .error _, .ok _ => isFalse (by simp)

instance : DecidableEq (Except ColumnError (Nat × Nat)) := fun a b =>
  match a, b with
  | .ok x, .ok y => decidable_of_iff (x = y) (by simp)
  | .error x, .error y => decidable_of_iff (x = y) (by simp)
  | .ok _, .error _ => isFalse (by simp)
  | .error _, .ok _ => isFalse (by simp)

/-- Columns reachable from the empty column by the append operations of the
spec (`append_value`, `append_view`, and `append_range` applied within its
documented range contract). -/
inductive Reachable : BinaryColumn → Prop where
  | empty : Reachable BinaryColumn.empty
  | append_value (c : BinaryColumn) (s : Bytes) :
      Reachable c → Reachable (c.append_value s)
  | append_view (c : BinaryColumn) (v : RowView) :
      Reachable c → Reachable (c.append_view v)
  | append_range (dst src : BinaryColumn) (i j : Nat) :
      Reachable dst → Reachable src → i ≤ j → j ≤ src.row_count →
      Reachable (dst.append_range src i j)

/-- The column obtained by appending the given rows, in order, to a fresh
column. -/
def ofRows (rows : List Bytes) : BinaryColumn :=
  rows.foldl BinaryColumn.append_value BinaryColumn.empty

/-- The benchmark's mode 1 (src/be/src/bench/binary_column_copy_bench.cpp:58-66):
append every materialized owned row value of the source into a fresh
destination. -/
def mode1 (src : BinaryColumn) : BinaryColumn :=
  src.materialized_rows.foldl BinaryColumn.append_value BinaryColumn.empty

/-- The benchmark's mode 2 (src/be/src/bench/binary_column_copy_bench.cpp:68-74):
append a borrowed view of every source row into a fresh destination. -/
def mode2 (src : BinaryColumn) : BinaryColumn :=
  (List.range src.row_count).foldl
    (fun d i => d.append_view (src.get_slice i)) BinaryColumn.empty

namespace BinaryColumn

theorem valid_mono (c : BinaryColumn) (h : Valid c) :
    ∀ i j, i ≤ j → j < c.offsets.length →
      c.offsets.getD i 0 ≤ c.offsets.getD j 0 := by
  obtain ⟨-, -, hmono, -⟩ := h
  intro i j hij hj
  obtain ⟨d, rfl⟩ := Nat.exists_eq_add_of_le hij
  clear hij
  induction d with
  | zero => simp
  | succ d ih =>
    have h1 : i + d < c.offsets.length := by omega
    calc c.offsets.getD i 0 ≤ c.offsets.getD (i + d) 0 := ih h1
      _ ≤ c.offsets.getD (i + d + 1) 0 := hmono _ (by omega)

theorem valid_getD_le_len (c : BinaryColumn) (h : Valid c) (i : Nat) :
    c.offsets.getD i 0 ≤ c.bytes.length := by
  have hlen : 0 < c.offsets.length := List.length_pos.mpr h.1
  rcases Nat.lt_or_ge i c.offsets.length with hi | hi
  · have hm := valid_mono c h i (c.offsets.length - 1) (by omega) (by omega)
    rw [h.2.2.2] at hm
    exact hm
  · rw [List.getD_eq_default _ _ hi]
    exact Nat.zero_le _

theorem getD_map_range (f : Nat → Nat) (n m : Nat) (hm : m < n) :
    ((List.range n).map f).getD m 0 = f m := by
  rw [List.getD_eq_getElem _ _ (by simpa using hm)]
  simp

theorem take_drop_append_eq (b s : Bytes) (st e : Nat) (he : e ≤ b.length) :
    ((b ++ s).drop st).take (e - st) = (b.drop st).take (e - st) := by
  rcases Nat.lt_or_ge st e with hlt | hge
  · have hst : st ≤ b.length := by omega
    rw [List.drop_append_of_le_length hst,
      List.take_append_of_le_length (by simp; omega)]
  · have h0 : e - st = 0 := by omega
    simp [h0]

theorem row_count_append_value (c : BinaryColumn) (s : Bytes)
    (h : c.offsets ≠ []) :
    (c.append_value s).row_count = c.row_count + 1 := by
  have hlen : 0 < c.offsets.length := List.length_pos.mpr h
  unfold append_value row_count
  simp only [List.length_append, List.length_singleton]
  omega

theorem valid_append_value (c : BinaryColumn) (s : Bytes) (h : Valid c) :
    Valid (c.append_value s) := by
  obtain ⟨hne, hhead, hmono, hlast⟩ := h
  have hlen : 0 < c.offsets.length := List.length_pos.mpr hne
  refine ⟨by simp [append_value], ?_, ?_, ?_⟩
  · unfold append_value
    simp only
    rw [List.getD_append _ _ _ _ hlen]
    exact hhead
  · unfold append_value
    simp only [List.length_append, List.length_singleton]
    intro i hi
    rcases Nat.lt_or_ge (i + 1) c.offsets.length with hi1 | hi1
    · rw [List.getD_append _ _ _ _ (by omega), List.getD_append _ _ _ _ hi1]
      exact hmono i (by omega)
    · have hieq : i + 1 = c.offsets.length := by omega
      rw [List.getD_append _ _ _ _ (by omega),
        List.getD_append_right _ _ _ _ (by omega)]
      have : c.offsets.getD i 0 = c.bytes.length := by
        rw [← hlast]; congr 1; omega
      rw [this, hieq]
      simp
  · unfold append_value
    simp only [List.length_append, List.length_singleton]
    have hidx : c.offsets.length + 1 - 1 = c.offsets.length := by omega
    rw [hidx, List.getD_append_right _ _ _ _ (by omega)]
    simp

theorem get_row_append_value_lt (c : BinaryColumn) (s : Bytes) (h : Valid c)
    (i : Nat) (hi : i < c.row_count) :
    (c.append_value s).get_row i = c.get_row i := by
  have hne := h.1
  have hlen : 0 < c.offsets.length := List.length_pos.mpr hne
  have hrc : (c.append_value s).row_count = c.row_count + 1 :=
    row_count_append_value c s hne
  have hi1 : i + 1 < c.offsets.length := by unfold row_count at hi; omega
  unfold get_row bounds
  rw [if_pos hi, if_pos (by omega)]
  unfold append_value
  simp only
  rw [List.getD_append _ _ _ (i + 1) hi1, List.getD_append _ _ _ i (by omega)]
  rw [take_drop_append_eq c.bytes s _ _ (valid_getD_le_len c h (i + 1))]

theorem get_row_append_value_last (c : BinaryColumn) (s : Bytes) (h : Valid c) :
    (c.append_value s).get_row c.row_count = .ok s := by
  have hne := h.1
  have hlen : 0 < c.offsets.length := List.length_pos.mpr hne
  have hrc : (c.append_value s).row_count = c.row_count + 1 :=
    row_count_append_value c s hne
  have hrlt : c.row_count < c.offsets.length := by unfold row_count; omega
  have hrge : c.offsets.length ≤ c.row_count + 1 := by unfold row_count; omega
  unfold get_row bounds
  rw [if_pos (by omega)]
  unfold append_value
  simp only
  rw [List.getD_append_right _ _ _ (c.row_count + 1) hrge,
    List.getD_append _ _ _ c.row_count hrlt]
  have hsub : c.row_count + 1 - c.offsets.length = 0 := by omega
  have hrow : c.offsets.getD c.row_count 0 = c.bytes.length := h.2.2.2
  rw [hsub, hrow]
  simp only [List.getD_cons_zero]
  rw [List.drop_left]
  congr 1
  · rw [Nat.add_sub_cancel_left]
    exact List.take_length s

theorem mid_length (src : BinaryColumn) (hs : Valid src) (i j : Nat)
    (hij : i ≤ j) (hj : j < src.offsets.length) :
    ((src.bytes.drop (src.offsets.getD i 0)).take
      (src.offsets.getD j 0 - src.offsets.getD i 0)).length =
    src.offsets.getD j 0 - src.offsets.getD i 0 := by
  have hse : src.offsets.getD i 0 ≤ src.offsets.getD j 0 :=
    valid_mono src hs i j hij hj
  have hel : src.offsets.getD j 0 ≤ src.bytes.length :=
    valid_getD_le_len src hs j
  rw [List.length_take, List.length_drop]
  omega

theorem valid_append_range (dst src : BinaryColumn) (i j : Nat)
    (hd : Valid dst) (hs : Valid src) (hij : i ≤ j) (hj : j ≤ src.row_count) :
    Valid (dst.append_range src i j) := by
  have hdne := hd.1
  have hdlen : 0 < dst.offsets.length := List.length_pos.mpr hdne
  have hslen : 0 < src.offsets.length := List.length_pos.mpr hs.1
  have hjlt : j < src.offsets.length := by unfold row_count at hj; omega
  have hmid := mid_length src hs i j hij hjlt
  refine ⟨by simp [append_range, hdne], ?_, ?_, ?_⟩
  · unfold append_range
    simp only
    rw [List.getD_append _ _ _ 0 hdlen]
    exact hd.2.1
  · unfold append_range
    simp only [List.length_append, List.length_map, List.length_range]
    intro k hk
    rcases Nat.lt_or_ge (k + 1) dst.offsets.length with hk1 | hk1
    · rw [List.getD_append _ _ _ k (by omega), List.getD_append _ _ _ (k + 1) hk1]
      exact hd.2.2.1 k (by omega)
    rcases Nat.lt_or_ge k dst.offsets.length with hk0 | hk0
    · -- boundary: k = dst.offsets.length - 1, k + 1 = dst.offsets.length
      have hkeq : k = dst.offsets.length - 1 := by omega
      rw [List.getD_append _ _ _ k hk0,
        List.getD_append_right _ _ _ (k + 1) (by omega)]
      have hdl : dst.offsets.getD k 0 = dst.bytes.length := by
        rw [hkeq]; exact hd.2.2.2
      have hn : 0 < j - i := by omega
      rw [hdl, getD_map_range _ _ (k + 1 - dst.offsets.length) (by omega)]
      omega
    · -- both in the appended part
      rw [List.getD_append_right _ _ _ k hk0,
        List.getD_append_right _ _ _ (k + 1) (by omega)]
      have hklt : k - dst.offsets.length + 1 < j - i := by omega
      rw [getD_map_range _ _ (k - dst.offsets.length) (by omega),
        getD_map_range _ _ (k + 1 - dst.offsets.length) (by omega)]
      have hstep : src.offsets.getD (i + (k - dst.offsets.length) + 1) 0 ≤
          src.offsets.getD (i + (k + 1 - dst.offsets.length) + 1) 0 := by
        have h1 : i + (k + 1 - dst.offsets.length) + 1 < src.offsets.length := by omega
        exact valid_mono src hs _ _ (by omega) h1
      omega
  · unfold append_range
    simp only [List.length_append, List.length_map, List.length_range, hmid]
    rcases Nat.eq_or_lt_of_le hij with heq | hlt
    · subst heq
      have hz : i - i = 0 := by omega
      simp only [hz, List.range_zero, List.map_nil, List.append_nil]
      have : src.offsets.getD i 0 - src.offsets.getD i 0 = 0 := by omega
      rw [this]
      simp only [Nat.add_zero]
      exact hd.2.2.2
    · have hn : 0 < j - i := by omega
      have hidx : dst.offsets.length + (j - i) - 1 =
          dst.offsets.length + (j - i - 1) := by omega
      rw [hidx, List.getD_append_right _ _ _ _ (by omega)]
      have hsub : dst.offsets.length + (j - i - 1) - dst.offsets.length =
          j - i - 1 := by omega
      rw [hsub, getD_map_range _ _ _ (by omega)]
      have hjeq : i + (j - i - 1) + 1 = j := by omega
      rw [hjeq]
      have hse : src.offsets.getD i 0 ≤ src.offsets.getD j 0 :=
        valid_mono src hs i j hij hjlt
      omega

end BinaryColumn

theorem ofRows_append (rows : List Bytes) (s : Bytes) :
    ofRows (rows ++ [s]) = (ofRows rows).append_value s := by
  unfold ofRows
  rw [List.foldl_append]
  rfl

theorem valid_ofRows (rows : List Bytes) : Valid (ofRows rows) := by
  induction rows using List.reverseRecOn with
  | nil => decide
  | append_singleton l a ih =>
    rw [ofRows_append]
    exact BinaryColumn.valid_append_value _ _ ih

theorem row_count_ofRows (rows : List Bytes) :
    (ofRows rows).row_count = rows.length := by
  induction rows using List.reverseRecOn with
  | nil => decide
  | append_singleton l a ih =>
    rw [ofRows_append,
      BinaryColumn.row_count_append_value _ _ (valid_ofRows l).1, ih]
    simp

theorem get_row_ofRows (rows : List Bytes) :
    ∀ i < rows.length, (ofRows rows).get_row i = .ok (rows.getD i []) := by
  induction rows using List.reverseRecOn with
  | nil => intro i hi; simp at hi
  | append_singleton l a ih =>
    intro i hi
    rw [ofRows_append]
    rcases Nat.lt_or_ge i l.length with hlt | hge
    · rw [BinaryColumn.get_row_append_value_lt _ _ (valid_ofRows l) i
        (by rw [row_count_ofRows]; exact hlt)]
      rw [ih i hlt, List.getD_append _ _ _ i hlt]
    · have hieq : i = l.length := by
        simp only [List.length_append, List.length_singleton] at hi; omega
      subst hieq
      have hlast := BinaryColumn.get_row_append_value_last (ofRows l) a (valid_ofRows l)
      rw [row_count_ofRows] at hlast
      rw [hlast, List.getD_append_right _ _ _ _ (le_refl _)]
      simp

/-- C1: for every finite sequence of byte strings `s_0..s_{n-1}` appended in
order to a fresh Binary Column via `append_value`, and every `i < n`,
`get_row(i)` returns bytes identical to `s_i`. -/
theorem C1_append_value_then_get_row (rows : List Bytes) (i : Nat)
    (hi : i < rows.length) :
    (ofRows rows).get_row i = .ok (rows.getD i []) :=
  get_row_ofRows rows i hi

/-- Witness for C1 at the concrete sequence `[[1], [2, 3]]`, row 1. -/
theorem C1_append_value_then_get_row_witness :
    (ofRows [[1], [2, 3]]).get_row 1 = .ok ([[1], [2, 3]].getD 1 []) :=
  C1_append_value_then_get_row [[1], [2, 3]] 1 (by decide)

/-- C2: for every column reachable from the empty column by append
operations, the offset index has length `row_count + 1`, starts at 0, is
non-decreasing, and ends at `total_bytes()`. -/
theorem C2_offsets_invariant (c : BinaryColumn) (h : Reachable c) :
    (c.offsets.length = c.row_count + 1 ∧
     c.offsets.getD 0 0 = 0 ∧
     (∀ i < c.offsets.length - 1,
       c.offsets.getD i 0 ≤ c.offsets.getD (i + 1) 0) ∧
     c.offsets.getD (c.offsets.length - 1) 0 = c.total_bytes) ∧
    (∀ (c2 : BinaryColumn) (s : Bytes), Valid c2 → Valid (c2.append_value s)) ∧
    (∀ (c2 : BinaryColumn) (v : RowView), Valid c2 → Valid (c2.append_view v)) ∧
    (∀ (d s2 : BinaryColumn) (i j : Nat), Valid d → Valid s2 → i ≤ j →
      j ≤ s2.row_count → Valid (d.append_range s2 i j)) := by
  have hv : Valid c := by
    induction h with
    | empty => decide
    | append_value c s _ ih => exact BinaryColumn.valid_append_value c s ih
    | append_view c v _ ih => exact BinaryColumn.valid_append_value c _ ih
    | append_range dst src i j _ _ hij hj ihd ihs =>
      exact BinaryColumn.valid_append_range dst src i j ihd ihs hij hj
  obtain ⟨hne, hhead, hmono, hlast⟩ := hv
  have hlen : 0 < c.offsets.length := List.length_pos.mpr hne
  refine ⟨⟨by unfold BinaryColumn.row_count; omega, hhead, hmono, hlast⟩,
    fun c2 s h2 => BinaryColumn.valid_append_value c2 s h2,
    fun c2 v h2 => BinaryColumn.valid_append_value c2 _ h2,
    fun d s2 i j hd hs2 hij hj =>
      BinaryColumn.valid_append_range d s2 i j hd hs2 hij hj⟩

/-- Witness for C2 at the reachable column `empty.append_value [7]`. -/
theorem C2_offsets_invariant_witness :
    (BinaryColumn.empty.append_value [7]).offsets.length =
      (BinaryColumn.empty.append_value [7]).row_count + 1 ∧
    (BinaryColumn.empty.append_value [7]).offsets.getD 0 0 = 0 ∧
    (BinaryColumn.empty.append_value [7]).offsets.getD 0 0 ≤
      (BinaryColumn.empty.append_value [7]).offsets.getD 1 0 ∧
    (BinaryColumn.empty.append_value [7]).offsets.getD
        ((BinaryColumn.empty.append_value [7]).offsets.length - 1) 0 =
      (BinaryColumn.empty.append_value [7]).total_bytes ∧
    Valid (BinaryColumn.empty.append_value [4, 2]) ∧
    Valid ((BinaryColumn.mk [9] [0, 1]).append_range
      (BinaryColumn.mk [1, 2, 3] [0, 1, 3]) 0 2) := by
  obtain ⟨⟨h1, h2, h3, h4⟩, hav, hvw, har⟩ :=
    C2_offsets_invariant (BinaryColumn.empty.append_value [7])
      (Reachable.append_value _ _ Reachable.empty)
  exact ⟨h1, h2, h3 0 (by decide), h4,
    hav BinaryColumn.empty [4, 2] (by decide),
    har (BinaryColumn.mk [9] [0, 1]) (BinaryColumn.mk [1, 2, 3] [0, 1, 3])
      0 2 (by decide) (by decide) (by decide) (by decide)⟩

/-- C3: the benchmark's two per-row copy strategies agree — appending every
materialized owned row value (mode 1) and appending every borrowed row view
(mode 2) build identical destination columns, equal in bytes and offsets;
`append_view` is `append_value` of the view's referenced bytes. -/
theorem C3_append_strategies_agree (src : BinaryColumn) :
    mode1 src = mode2 src ∧
    (mode1 src).bytes = (mode2 src).bytes ∧
    (mode1 src).offsets = (mode2 src).offsets ∧
    ∀ (c : BinaryColumn) (v : RowView), c.append_view v = c.append_value v.bytes := by
  have key : mode1 src = mode2 src := by
    unfold mode1 mode2 BinaryColumn.materialized_rows
    rw [List.foldl_map]
    rfl
  exact ⟨key, by rw [key], by rw [key], fun c v => rfl⟩

theorem append_range_row_count (dst src : BinaryColumn)
    (hdne : dst.offsets ≠ []) (i j : Nat) :
    (dst.append_range src i j).row_count = dst.row_count + (j - i) := by
  have hdlen : 0 < dst.offsets.length := List.length_pos.mpr hdne
  unfold BinaryColumn.append_range BinaryColumn.row_count
  simp only [List.length_append, List.length_map, List.length_range]
  omega

theorem append_range_getD (dst src : BinaryColumn) (hd : Valid dst)
    (i j m : Nat) (hm : m ≤ j - i) :
    (dst.append_range src i j).offsets.getD (dst.row_count + m) 0 =
      src.offsets.getD (i + m) 0 - src.offsets.getD i 0 + dst.bytes.length := by
  have hdlen : 0 < dst.offsets.length := List.length_pos.mpr hd.1
  have hrc : dst.row_count = dst.offsets.length - 1 := rfl
  unfold BinaryColumn.append_range
  simp only
  rcases Nat.eq_zero_or_pos m with hm0 | hmpos
  · subst hm0
    have hidx : dst.row_count + 0 = dst.offsets.length - 1 := by omega
    rw [hidx, List.getD_append _ _ _ _ (by omega), hd.2.2.2, Nat.add_zero]
    omega
  · have hidx : dst.row_count + m = dst.offsets.length + (m - 1) := by omega
    rw [hidx, List.getD_append_right _ _ _ _ (by omega)]
    have hsub : dst.offsets.length + (m - 1) - dst.offsets.length = m - 1 := by
      omega
    rw [hsub, BinaryColumn.getD_map_range _ _ (m - 1) (by omega)]
    have hi1 : i + (m - 1) + 1 = i + m := by omega
    rw [hi1]

theorem range_copy_slice (src dstb : Bytes) (s a b e : Nat)
    (hsa : s ≤ a) (hab : a ≤ b) (hbe : b ≤ e) (hel : e ≤ src.length) :
    ((dstb ++ (src.drop s).take (e - s)).drop (a - s + dstb.length)).take
      (b - s + dstb.length - (a - s + dstb.length)) =
    (src.drop a).take (b - a) := by
  have h1 : b - s + dstb.length - (a - s + dstb.length) = b - a := by omega
  rw [h1]
  have h2 : a - s + dstb.length = dstb.length + (a - s) := by omega
  rw [h2, List.drop_append, List.drop_take, List.drop_drop]
  have h3 : s + (a - s) = a := by omega
  rw [h3, List.take_take]
  congr 1
  omega

/-- C4: `append_range(C, i, j)` onto a column `C'` makes every copied row
readable at its shifted index — `get_row(r + k)` of the result equals
`C.get_row(i + k)` for `k < j - i`, with `r` the destination's prior row
count — and the k-th new offset entry equals
`C.offsets[i+k+1] - C.offsets[i]` plus the destination's prior byte size. -/
theorem C4_append_range_copies_rows (dst src : BinaryColumn)
    (hd : Valid dst) (hs : Valid src) (i j k : Nat)
    (hij : i ≤ j) (hj : j ≤ src.row_count) (hk : k < j - i) :
    (dst.append_range src i j).get_row (dst.row_count + k) =
      src.get_row (i + k) ∧
    (dst.append_range src i j).offsets.getD (dst.offsets.length + k) 0 =
      src.offsets.getD (i + k + 1) 0 - src.offsets.getD i 0 +
        dst.total_bytes := by
  have hdlen : 0 < dst.offsets.length := List.length_pos.mpr hd.1
  have hslen : 0 < src.offsets.length := List.length_pos.mpr hs.1
  have hjlt : j < src.offsets.length := by
    unfold BinaryColumn.row_count at hj; omega
  have hrc : dst.row_count = dst.offsets.length - 1 := rfl
  have hsrc_rc : src.row_count = src.offsets.length - 1 := rfl
  have hsa : src.offsets.getD i 0 ≤ src.offsets.getD (i + k) 0 :=
    BinaryColumn.valid_mono src hs i (i + k) (by omega) (by omega)
  have hab : src.offsets.getD (i + k) 0 ≤ src.offsets.getD (i + k + 1) 0 :=
    BinaryColumn.valid_mono src hs (i + k) (i + k + 1) (by omega) (by omega)
  have hbe : src.offsets.getD (i + k + 1) 0 ≤ src.offsets.getD j 0 :=
    BinaryColumn.valid_mono src hs (i + k + 1) j (by omega) hjlt
  have hel : src.offsets.getD j 0 ≤ src.bytes.length :=
    BinaryColumn.valid_getD_le_len src hs j
  have hrcnew := append_range_row_count dst src hd.1 i j
  have hstd := append_range_getD dst src hd i j k (by omega)
  have hend := append_range_getD dst src hd i j (k + 1) (by omega)
  simp only [← Nat.add_assoc] at hend
  constructor
  · have hrlt : dst.row_count + k < (dst.append_range src i j).row_count := by
      omega
    have hsrclt : i + k < src.row_count := by omega
    unfold BinaryColumn.get_row BinaryColumn.bounds
    rw [if_pos hrlt, if_pos hsrclt, hstd, hend]
    have hbytes : (dst.append_range src i j).bytes =
        dst.bytes ++ (src.bytes.drop (src.offsets.getD i 0)).take
          (src.offsets.getD j 0 - src.offsets.getD i 0) := rfl
    rw [hbytes]
    exact congrArg Except.ok
      (range_copy_slice src.bytes dst.bytes _ _ _ _ hsa hab hbe hel)
  · have hoffidx : dst.offsets.length + k = dst.row_count + k + 1 := by omega
    rw [hoffidx]
    exact hend

/-- Witness for C4: copying rows [0, 2) of the column with bytes
`[1, 2, 3]` and offsets `[0, 1, 3]` onto a one-row destination, checked at
`k = 1`. -/
theorem C4_append_range_copies_rows_witness :
    ((BinaryColumn.mk [9] [0, 1]).append_range
        (BinaryColumn.mk [1, 2, 3] [0, 1, 3]) 0 2).get_row
      ((BinaryColumn.mk [9] [0, 1]).row_count + 1) =
      (BinaryColumn.mk [1, 2, 3] [0, 1, 3]).get_row (0 + 1) ∧
    ((BinaryColumn.mk [9] [0, 1]).append_range
        (BinaryColumn.mk [1, 2, 3] [0, 1, 3]) 0 2).offsets.getD
      ((BinaryColumn.mk [9] [0, 1]).offsets.length + 1) 0 =
      (BinaryColumn.mk [1, 2, 3] [0, 1, 3]).offsets.getD (0 + 1 + 1) 0 -
        (BinaryColumn.mk [1, 2, 3] [0, 1, 3]).offsets.getD 0 0 +
        (BinaryColumn.mk [9] [0, 1]).total_bytes :=
  C4_append_range_copies_rows (BinaryColumn.mk [9] [0, 1])
    (BinaryColumn.mk [1, 2, 3] [0, 1, 3]) (by decide) (by decide) 0 2 1
    (by decide) (by decide) (by decide)

/-- C5: `append_value("A")`, `append_value("BC")`, `append_value("")` on a
fresh column gives offsets `[0, 1, 3, 3]` and rows "A", "BC", "" (byte
values 65, 66, 67). -/
theorem C5_concrete_scenario :
    (((BinaryColumn.empty.append_value [65]).append_value [66, 67]).append_value
        []).offsets = [0, 1, 3, 3] ∧
    (((BinaryColumn.empty.append_value [65]).append_value [66, 67]).append_value
        []).get_row 0 = .ok [65] ∧
    (((BinaryColumn.empty.append_value [65]).append_value [66, 67]).append_value
        []).get_row 1 = .ok [66, 67] ∧
    (((BinaryColumn.empty.append_value [65]).append_value [66, 67]).append_value
        []).get_row 2 = .ok [] := by
  decide

/-- C6: appending a zero-length value as row `i = row_count` leaves
`offsets[i] = offsets[i+1]`, and `get_row(i)` then succeeds with a
zero-length result. -/
theorem C6_append_empty_value (c : BinaryColumn) (h : Valid c) :
    (c.append_value []).offsets.getD c.row_count 0 =
      (c.append_value []).offsets.getD (c.row_count + 1) 0 ∧
    (c.append_value []).get_row c.row_count = .ok [] := by
  have hne := h.1
  have hlen : 0 < c.offsets.length := List.length_pos.mpr hne
  have hrlt : c.row_count < c.offsets.length := by
    unfold BinaryColumn.row_count; omega
  have hrge : c.offsets.length ≤ c.row_count + 1 := by
    unfold BinaryColumn.row_count; omega
  constructor
  · unfold BinaryColumn.append_value
    simp only
    rw [List.getD_append _ _ _ c.row_count hrlt,
      List.getD_append_right _ _ _ (c.row_count + 1) hrge]
    have hsub : c.row_count + 1 - c.offsets.length = 0 := by omega
    have hrow : c.offsets.getD c.row_count 0 = c.bytes.length := h.2.2.2
    rw [hsub, hrow]
    simp
  · exact BinaryColumn.get_row_append_value_last c [] h

/-- Witness for C6 at the empty column. -/
theorem C6_append_empty_value_witness :
    (BinaryColumn.empty.append_value []).offsets.getD
        BinaryColumn.empty.row_count 0 =
      (BinaryColumn.empty.append_value []).offsets.getD
        (BinaryColumn.empty.row_count + 1) 0 ∧
    (BinaryColumn.empty.append_value []).get_row BinaryColumn.empty.row_count =
      .ok [] :=
  C6_append_empty_value BinaryColumn.empty (by decide)

/-- C7: a read (`bounds(i)` / `get_row(i)`) fails with IndexOutOfRange iff
`i` is not in `[0, row_count)`; for `i` in range it succeeds and returns
`(offsets[i], offsets[i+1])` (respectively the bytes of that range). -/
theorem C7_read_bounds_errors (c : BinaryColumn) (i : Nat) :
    (c.bounds i = .error .IndexOutOfRange ↔ c.row_count ≤ i) ∧
    (c.get_row i = .error .IndexOutOfRange ↔ c.row_count ≤ i) ∧
    (i < c.row_count →
      c.bounds i = .ok (c.offsets.getD i 0, c.offsets.getD (i + 1) 0) ∧
      c.get_row i = .ok ((c.bytes.drop (c.offsets.getD i 0)).take
        (c.offsets.getD (i + 1) 0 - c.offsets.getD i 0))) := by
  unfold BinaryColumn.get_row BinaryColumn.bounds
  rcases Nat.lt_or_ge i c.row_count with hlt | hge
  · rw [if_pos hlt]
    refine ⟨?_, ?_, fun _ => ⟨rfl, rfl⟩⟩
    · simp only [iff_iff_implies_and_implies]
      exact ⟨fun h => by simp at h, fun h => by omega⟩
    · simp only [iff_iff_implies_and_implies]
      exact ⟨fun h => by simp at h, fun h => by omega⟩
  · rw [if_neg (by omega)]
    exact ⟨⟨fun _ => hge, fun _ => rfl⟩, ⟨fun _ => hge, fun _ => rfl⟩,
      fun h => by omega⟩

/-- Witness for C7 at a one-row column, index 0 (in range) packaged through
the theorem itself. -/
theorem C7_read_bounds_errors_witness :
    ((BinaryColumn.mk [5] [0, 1]).bounds 0 = .error .IndexOutOfRange ↔
      (BinaryColumn.mk [5] [0, 1]).row_count ≤ 0) ∧
    ((BinaryColumn.mk [5] [0, 1]).get_row 0 = .error .IndexOutOfRange ↔
      (BinaryColumn.mk [5] [0, 1]).row_count ≤ 0) ∧
    (0 < (BinaryColumn.mk [5] [0, 1]).row_count →
      (BinaryColumn.mk [5] [0, 1]).bounds 0 =
        .ok ((BinaryColumn.mk [5] [0, 1]).offsets.getD 0 0,
          (BinaryColumn.mk [5] [0, 1]).offsets.getD 1 0) ∧
      (BinaryColumn.mk [5] [0, 1]).get_row 0 =
        .ok (((BinaryColumn.mk [5] [0, 1]).bytes.drop
            ((BinaryColumn.mk [5] [0, 1]).offsets.getD 0 0)).take
          ((BinaryColumn.mk [5] [0, 1]).offsets.getD 1 0 -
            (BinaryColumn.mk [5] [0, 1]).offsets.getD 0 0))) :=
  C7_read_bounds_errors (BinaryColumn.mk [5] [0, 1]) 0

/-- C8: `push_end(new_end)` on a non-empty offset sequence appends `new_end`
when it is at least the last element and fails with InvalidState when it is
below the last element. -/
theorem C8_push_end_monotonic (offsets : List Nat) (new_end : Nat)
    (h : offsets ≠ []) :
    (offsets.getLastD 0 ≤ new_end →
      push_end offsets new_end = .ok (offsets ++ [new_end])) ∧
    (new_end < offsets.getLastD 0 →
      push_end offsets new_end = .error .InvalidState) := by
  unfold push_end
  exact ⟨fun hle => by rw [if_pos hle], fun hlt => by rw [if_neg (by omega)]⟩

/-- Witness for C8: pushing 2 after last element 0 succeeds; pushing 3 after
last element 5 fails with InvalidState. -/
theorem C8_push_end_monotonic_witness :
    push_end [0] 2 = .ok [0, 2] ∧ push_end [0, 5] 3 = .error .InvalidState :=
  ⟨(C8_push_end_monotonic [0] 2 (by decide)).1 (by decide),
    (C8_push_end_monotonic [0, 5] 3 (by decide)).2 (by decide)⟩

/-- C9: an append can fail only with OutOfMemory, exactly when it needs the
buffer to grow and the growth allocation fails; on failure the column —
buffer contents, offset index and row count — is exactly as before the
call. -/
theorem C9_append_oom_atomic (c : BufferedColumn) (alloc : Nat → Bool)
    (s : Bytes) (e : ColumnError)
    (h : (c.append_value alloc s).1 = .error e) :
    e = .OutOfMemory ∧
    (c.append_value alloc s).2 = c ∧
    c.buf.capacity < c.buf.size + s.length ∧
    alloc (max (c.buf.size + s.length) (c.buf.capacity * 2)) = false := by
  unfold BufferedColumn.append_value ByteBuffer.append_bytes at h ⊢
  rcases hle : decide (c.buf.size + s.length ≤ c.buf.capacity) with _ | _
  · have hle2 : ¬ (c.buf.size + s.length ≤ c.buf.capacity) := of_decide_eq_false hle
    rcases hal : alloc (max (c.buf.size + s.length) (c.buf.capacity * 2)) with _ | _
    · simp only [if_neg hle2, hal, if_neg Bool.false_ne_true] at h ⊢
      simp only [Except.error.injEq] at h
      exact ⟨h.symm, by trivial, by omega, by trivial⟩
    · simp only [if_neg hle2, hal, if_pos rfl] at h
      simp at h
  · have hle2 : c.buf.size + s.length ≤ c.buf.capacity := of_decide_eq_true hle
    simp only [if_pos hle2] at h
    simp at h

/-- Witness for C9: a full one-byte buffer of capacity one, an allocator that
always fails, and a one-byte append. -/
theorem C9_append_oom_atomic_witness :
    ColumnError.OutOfMemory = ColumnError.OutOfMemory ∧
    ((BufferedColumn.mk (ByteBuffer.mk [1] 1) [0, 1]).append_value
        (fun _ => false) [2]).2 = BufferedColumn.mk (ByteBuffer.mk [1] 1) [0, 1] ∧
    (BufferedColumn.mk (ByteBuffer.mk [1] 1) [0, 1]).buf.capacity <
      (BufferedColumn.mk (ByteBuffer.mk [1] 1) [0, 1]).buf.size + [2].length ∧
    (fun (_ : Nat) => false)
        (max ((BufferedColumn.mk (ByteBuffer.mk [1] 1) [0, 1]).buf.size +
          [2].length) ((BufferedColumn.mk (ByteBuffer.mk [1] 1) [0, 1]).buf.capacity * 2)) =
      false :=
  C9_append_oom_atomic (BufferedColumn.mk (ByteBuffer.mk [1] 1) [0, 1])
    (fun _ => false) [2] .OutOfMemory rfl

/-- C10: every string produced by the benchmark's `_rand_str` has length
between 1 and 32 and consists only of the byte values of 'A'..'Z'
(65..90); in particular it is non-empty. -/
theorem C10_rand_str_shape (rand : Nat → Nat) :
    1 ≤ (rand_str rand).length ∧ (rand_str rand).length ≤ 32 ∧
    ∀ ch ∈ rand_str rand, 65 ≤ ch ∧ ch ≤ 90 := by
  refine ⟨?_, ?_, ?_⟩
  · simp [rand_str]
  · simp only [rand_str, List.length_map, List.length_range]
    have := Nat.mod_lt (rand 0) (show 0 < 32 by norm_num)
    omega
  · intro ch hch
    simp only [rand_str, List.mem_map, List.mem_range] at hch
    obtain ⟨j, hj, rfl⟩ := hch
    have := Nat.mod_lt (rand (j + 1)) (show 0 < 26 by norm_num)
    omega

/-- Witness for C10 at the identity random stream, whose generated string is
`[66]`. -/
theorem C10_rand_str_shape_witness :
    1 ≤ (rand_str (fun n => n)).length ∧ (rand_str (fun n => n)).length ≤ 32 ∧
    (65 ≤ 66 ∧ 66 ≤ 90) := by
  obtain ⟨h1, h2, h3⟩ := C10_rand_str_shape (fun n => n)
  exact ⟨h1, h2, h3 66 (by decide)⟩

end StarRocks
